import Mathlib

/-
Shallow embedding of the taxonomy-resolution core of the menouf_bot repository.

The Python functions `resolve_taxonomy_options` and `extract_program_list`
(src/bot.py), the compound-key builder inside `create_navigation_handler`
(src/bot.py), the report rate limiter of `report_file_handler` (src/bot.py),
and the taxonomy cache used by `get_taxonomy_doc` (src/db.py) are modelled
over a small universe `PyVal` of Python values.  Operations that can raise a
Python exception return `Except PyErr`; the relevant failure points are the
hashing of unhashable values when a set is built, comparison of incomparable
values inside `sorted`, and `str.endswith` invoked on a non-string key.
Strings are compared the way Python compares them: lexicographically by code
points, which is the order implemented by `charListLe` on `String.data`.

Python `==` appears in the modelled code only in two situations: comparing a
value against a string literal or string variable (`key == lookup_key`,
`key == 'list'`, `program == "خاص"`, `dict.get` with a string key), and
testing set membership of a value already known to be hashable
(`program in seen`, set deduplication).  A Python string compares equal only
to an equal string, and two hashable values of this universe compare equal
only when they are the same scalar; `keyEqStr` and `scalarBeq` implement
exactly these two restrictions of Python `==`.
-/

/-- Python runtime errors that the modelled code paths can raise. -/
inductive PyErr where
  | typeError
  | attributeError
deriving DecidableEq, Repr

/-- The universe of Python values appearing in taxonomy documents:
strings, ints, lists, dicts (as association lists in insertion order)
and `None`. -/
inductive PyVal where
  | str (s : String)
  | int (n : Int)
  | list (xs : List PyVal)
  | dict (entries : List (PyVal × PyVal))
  | none

/-- Python `v == k` for a string `k`: only an equal string matches. -/
def keyEqStr : PyVal → String → Bool
  | .str s, k => s == k
  | _, _ => false

/-- Python `==` restricted to the hashable values of the universe
(strings, ints, `None`); sound whenever either side is hashable. -/
def scalarBeq : PyVal → PyVal → Bool
  | .str a, .str b => a == b
  | .int a, .int b => a == b
  | .none, .none => true
  | _, _ => false

/-- Python truthiness: `""`, `0`, `[]`, `{}` and `None` are falsy. -/
def pyTruthy : PyVal → Bool
  | .str s => !(s == "")
  | .int n => !(n == 0)
  | .list xs => !xs.isEmpty
  | .dict es => !es.isEmpty
  | .none => false

/-- Hashability: strings, ints and `None` are hashable, lists and dicts are not. -/
def pyHashable : PyVal → Bool
  | .str _ => true
  | .int _ => true
  | .none => true
  | .list _ => false
  | .dict _ => false

/-- Python `dict.get` with a string key: the value of the first entry whose
key equals `k` (keys of a real Python dict are unique, so first-match agrees
with it). -/
def pyGet (entries : List (PyVal × PyVal)) (k : String) : Option PyVal :=
  (entries.find? (fun p => keyEqStr p.1 k)).map Prod.snd

/-- Lexicographic code-point comparison of character lists: this is exactly
how Python orders two strings. -/
def charListLe : List Char → List Char → Bool
  | [], _ => true
  | _ :: _, [] => false
  | a :: as, b :: bs => if a = b then charListLe as bs else decide (a < b)

/-- The Python string order, as a relation on `String`. -/
def StrLe (a b : String) : Prop := charListLe a.data b.data = true

instance : DecidableRel StrLe := fun a b =>
  inferInstanceAs (Decidable (charListLe a.data b.data = true))

/-- Python `str.endswith`, computed on the character lists. -/
def endsWithChars (s suffix : String) : Bool :=
  decide (suffix.data.length ≤ s.data.length) &&
    (s.data.drop (s.data.length - suffix.data.length) == suffix.data)

/-- Deduplication as performed by building a Python `set` from hashable
values (first occurrence kept; the iteration order of the resulting set is
irrelevant here because the caller sorts afterwards). -/
def pyDedupAux (seen : List PyVal) : List PyVal → List PyVal
  | [] => []
  | x :: xs =>
    if seen.any (fun y => scalarBeq y x) then pyDedupAux seen xs
    else x :: pyDedupAux (x :: seen) xs

/-- Set deduplication starting from the empty set. -/
def pyDedup (l : List PyVal) : List PyVal := pyDedupAux [] l

/-- Recognize a list whose members are all string values, returning the
underlying strings. -/
def asStrs : List PyVal → Option (List String)
  | [] => some []
  | .str s :: rest => (asStrs rest).map (fun ss => s :: ss)
  | _ => Option.none

/-- Recognize a list whose members are all int values. -/
def asInts : List PyVal → Option (List Int)
  | [] => some []
  | .int n :: rest => (asInts rest).map (fun ns => n :: ns)
  | _ => Option.none

/-- `sorted({opt for opt in options if opt})` from the tail of
`resolve_taxonomy_options`: drop falsy entries, build a set (raising
`TypeError` on an unhashable element), then sort (raising `TypeError` when
the set holds two or more elements of incomparable kinds). -/
def pySortedSet (options : List PyVal) : Except PyErr (List PyVal) :=
  let truthy := options.filter pyTruthy
  if truthy.all pyHashable then
    let dd := pyDedup truthy
    match asStrs dd with
    | some ss => .ok ((List.insertionSort StrLe ss).map PyVal.str)
    | Option.none =>
      match asInts dd with
      | some ns => .ok ((List.insertionSort (· ≤ ·) ns).map PyVal.int)
      | Option.none => if dd.length ≤ 1 then .ok dd else .error .typeError
  else .error .typeError

/-- The values found directly under `lookup_key`:
`direct = doc.get(lookup_key)` followed by `if isinstance(direct, list)`. -/
def directOptions (entries : List (PyVal × PyVal)) (lookup_key : String) : List PyVal :=
  match pyGet entries lookup_key with
  | some (.list vs) => vs
  | _ => []

/-- The legacy-compound scan of `resolve_taxonomy_options`: for each entry,
skip it when its key equals `lookup_key` or its value is not a list, then
call `key.endswith("_" + lookup_key)` — which raises `AttributeError` when
the key is not a string — and collect the value list on a match. -/
def legacyOptions : List (PyVal × PyVal) → String → Except PyErr (List PyVal)
  | [], _ => .ok []
  | (key, value) :: rest, lookup_key =>
    if keyEqStr key lookup_key then legacyOptions rest lookup_key
    else
      match value with
      | .list vs =>
        match key with
        | .str s =>
          if endsWithChars s ("_" ++ lookup_key) then
            match legacyOptions rest lookup_key with
            | .ok more => .ok (vs ++ more)
            | .error e => .error e
          else legacyOptions rest lookup_key
        | _ => .error .attributeError
      | _ => legacyOptions rest lookup_key

/-- `resolve_taxonomy_options(doc, lookup_key)` from src/bot.py:
return `[]` for a non-dict document or an empty key, collect the direct
values and the legacy-compound values, then return the sorted
deduplicated union with falsy entries dropped. -/
def resolve_taxonomy_options (doc : PyVal) (lookup_key : String) : Except PyErr (List PyVal) :=
  match doc with
  | .dict entries =>
    if lookup_key = "" then .ok []
    else
      match legacyOptions entries lookup_key with
      | .ok legacy => pySortedSet (directOptions entries lookup_key ++ legacy)
      | .error e => .error e
  | _ => .ok []

/-- The non-`"list"` buckets scanned by `extract_program_list`: every entry
whose key differs from `"list"` and whose value is a list contributes its
values in iteration order. -/
def otherBuckets : List (PyVal × PyVal) → List PyVal
  | [] => []
  | (key, value) :: rest =>
    if keyEqStr key "list" then otherBuckets rest
    else
      match value with
      | .list vs => vs ++ otherBuckets rest
      | _ => otherBuckets rest

/-- The `programs` accumulator of `extract_program_list` before
deduplication: the `"list"` bucket (when present and a list) followed by all
other list-valued buckets. -/
def collectedPrograms (entries : List (PyVal × PyVal)) : List PyVal :=
  (match pyGet entries "list" with
   | some (.list vs) => vs
   | _ => []) ++ otherBuckets entries

/-- The final loop of `extract_program_list`: skip falsy entries, test set
membership against `seen` on the original name (raising `TypeError` on an
unhashable value), rewrite `"خاص"` to `"تحكم"`, then record the rewritten
name in `seen` and append it. -/
def dedupePrograms (seen : List PyVal) : List PyVal → Except PyErr (List PyVal)
  | [] => .ok []
  | program :: rest =>
    if !pyTruthy program then dedupePrograms seen rest
    else if !pyHashable program then .error .typeError
    else if seen.any (fun y => scalarBeq y program) then dedupePrograms seen rest
    else
      let renamed := if keyEqStr program "خاص" then PyVal.str "تحكم" else program
      match dedupePrograms (renamed :: seen) rest with
      | .ok deduped => .ok (renamed :: deduped)
      | .error e => .error e

/-- `extract_program_list(doc)` from src/bot.py. -/
def extract_program_list (doc : PyVal) : Except PyErr (List PyVal) :=
  match doc with
  | .dict entries => dedupePrograms [] (collectedPrograms entries)
  | _ => .ok []

/-- A key that is a string value. -/
def isStrVal : PyVal → Bool
  | .str _ => true
  | _ => false

/-- A value that is a list whose members are all strings. -/
def isStrListVal : PyVal → Bool
  | .list xs => xs.all isStrVal
  | _ => false

/-- A taxonomy document mapping string keys to lists of strings. -/
def wellTypedDoc (entries : List (PyVal × PyVal)) : Bool :=
  entries.all (fun p => isStrVal p.1 && isStrListVal p.2)

-- ---------------------------------------------------------------------------
-- Compound key builder (create_navigation_handler, src/bot.py lines 126-135).
-- ---------------------------------------------------------------------------

/-- The fixed segment order `['program', 'term', 'subject']` of the builder. -/
def segOrder : List String := ["program", "term", "subject"]

/-- `path[k]` guarded by `k in path`: the navigation path is a dict from
segment names to the chosen values. -/
def pathLookup (path : List (String × String)) (k : String) : Option String :=
  (path.find? (fun p => p.1 == k)).map Prod.snd

/-- The loop of the compound key builder: for each segment `k` of the order,
append `path[k]` when `k in path`, and stop after handling the segment
currently being resolved (`key_name`). -/
def buildKeyParts (path : List (String × String)) (key_name : String) :
    List String → List String
  | [] => []
  | k :: rest =>
    let here := match pathLookup path k with
      | some v => [v]
      | Option.none => []
    if k == key_name then here else here ++ buildKeyParts path key_name rest

/-- `lookup_key = "_".join(key_parts)` over the fixed segment order. -/
def build_compound_key (path : List (String × String)) (key_name : String) : String :=
  String.intercalate "_" (buildKeyParts path key_name segOrder)

/-- The segments of `order` up to and including `name` (all of them when
`name` does not occur). -/
def takeThrough : List String → String → List String
  | [], _ => []
  | k :: rest, name => if k == name then [k] else k :: takeThrough rest name

-- ---------------------------------------------------------------------------
-- Taxonomy cache (src/db.py).  The constants 100 and 300 are the arguments
-- of `TTLCache(maxsize=100, ttl=300)` on line 26 of src/db.py.
-- ---------------------------------------------------------------------------

/-- Modelled from the spec: `cachetools.TTLCache` is an external library, not
part of the repository sources; a cache entry carries the cached document and
its insertion timestamp (time is measured in seconds). -/
structure CacheEntry where
  key : String
  val : PyVal
  ts : Nat

/-- `maxsize=100` from `TTLCache(maxsize=100, ttl=300)` (src/db.py line 26). -/
def cacheMaxsize : Nat := 100

/-- `ttl=300` from `TTLCache(maxsize=100, ttl=300)` (src/db.py line 26). -/
def cacheTtl : Nat := 300

/-- Modelled from the spec: an entry is fresh until its fixed TTL has
elapsed since insertion. -/
def cacheFresh (now : Nat) (e : CacheEntry) : Bool :=
  decide (now < e.ts + cacheTtl)

/-- Modelled from the spec: reading an entry refreshes its LRU position.
The cache state is kept in recency order, least recently used first. -/
def cacheTouch (c : List CacheEntry) (k : String) : List CacheEntry :=
  c.filter (fun e => !(e.key == k)) ++ c.filter (fun e => e.key == k)

/-- Modelled from the spec: storing a document replaces any entry with the
same key, timestamps the new entry and appends it in most-recent position,
then evicts from the least-recently-used end while the capacity (100) is
exceeded. -/
def cacheInsert (c : List CacheEntry) (now : Nat) (k : String) (v : PyVal) :
    List CacheEntry :=
  let c' := c.filter (fun e => !(e.key == k)) ++ [⟨k, v, now⟩]
  if c'.length > cacheMaxsize then c'.drop (c'.length - cacheMaxsize) else c'

/-- The outcome of one `get_taxonomy_doc` call: the returned document, the
cache state afterwards, and how many Taxonomy Store fetches were performed. -/
structure FetchOutcome where
  result : PyVal
  state : List CacheEntry
  fetches : Nat

/-- `get_taxonomy_doc(doc_id)` from src/db.py over the modelled cache:
on a hit (`doc_id in _taxonomy_cache`) return the cached document with no
store fetch; on a miss fetch `store doc_id` (one fetch) and store the result
under `doc_id` even when it is empty. -/
def get_taxonomy_doc (store : String → PyVal) (c : List CacheEntry) (now : Nat)
    (doc_id : String) : FetchOutcome :=
  match c.find? (fun e => e.key == doc_id && cacheFresh now e) with
  | some e => ⟨e.val, cacheTouch c doc_id, 0⟩
  | Option.none => ⟨store doc_id, cacheInsert c now doc_id (store doc_id), 1⟩

-- ---------------------------------------------------------------------------
-- Report rate limiter (report_file_handler, src/bot.py lines 696-715).
-- One user's `_report_tracker[user_id]` list; time in seconds, so
-- `timedelta(hours=1)` is 3600.
-- ---------------------------------------------------------------------------

/-- `timedelta(hours=1)` in seconds. -/
def reportWindow : Nat := 3600

/-- The per-user limit of accepted reports per rolling hour. -/
def reportLimit : Nat := 3

/-- Step 1 of the handler: keep only the timestamps less than one hour old
(`now - ts < timedelta(hours=1)`). -/
def recentReports (tracker : List Nat) (now : Nat) : List Nat :=
  tracker.filter (fun ts => decide (now - ts < reportWindow))

/-- Run the rate-limit logic of `report_file_handler` over a sequence of
attempt times: each attempt first prunes the tracker, is rejected when 3 or
more recent reports remain, and otherwise is accepted and recorded. -/
def reportRun (tracker : List Nat) : List Nat → List (Nat × Bool)
  | [] => []
  | now :: rest =>
    let recent := recentReports tracker now
    if reportLimit ≤ recent.length then (now, false) :: reportRun recent rest
    else (now, true) :: reportRun (recent ++ [now]) rest

/-- The times of the accepted attempts of an event list. -/
def acceptedTimes (events : List (Nat × Bool)) : List Nat :=
  (events.filter (fun e => e.2)).map (fun e => e.1)

/-- Membership of a timestamp in the one-hour window ending at `w + 3600`. -/
def inWin (w ts : Nat) : Bool :=
  decide (w < ts) && decide (ts ≤ w + reportWindow)


-- Sanity examples (spec section 8; a failing check here would indicate a
-- translation slip).
example : resolve_taxonomy_options
    (.dict [(.str "A_program", .list [.str "x", .str "y"]),
            (.str "program", .list [.str "y", .str "z"])]) "program"
    = .ok [.str "x", .str "y", .str "z"] := rfl

example : resolve_taxonomy_options
    (.dict [(.str "cs_term1", .list [.str "Math"]),
            (.str "term1", .list [.str "Math", .str "Physics"])]) "term1"
    = .ok [.str "Math", .str "Physics"] := rfl

example : resolve_taxonomy_options (.dict []) "x" = .ok [] := rfl

example : extract_program_list
    (.dict [(.str "list", .list [.str "a", .str "b"]),
            (.str "year1", .list [.str "b", .str "c"])])
    = .ok [.str "a", .str "b", .str "c"] := rfl

example : extract_program_list
    (.dict [(.str "list", .list [.str "تحكم", .str "خاص"])])
    = .ok [.str "تحكم", .str "تحكم"] := rfl

example : resolve_taxonomy_options
    (.dict [(.int 1, .list [.str "a"])]) "x" = .error .attributeError := rfl

example : extract_program_list
    (.dict [(.str "k", .list [.list [.str "a"]])]) = .error .typeError := rfl

example : resolve_taxonomy_options
    (.dict [(.str "k", .list [.int 1, .str "a"])]) "k" = .error .typeError := rfl

-- ---------------------------------------------------------------------------
-- Basic facts about the modelled Python equality, order and set primitives.
-- ---------------------------------------------------------------------------

theorem keyEqStr_iff (a : PyVal) (k : String) : keyEqStr a k = true ↔ a = .str k := by
  cases a <;> simp [keyEqStr]

theorem scalarBeq_iff (a b : PyVal) (hb : pyHashable b = true) :
    scalarBeq a b = true ↔ a = b := by
  cases a <;> cases b <;> simp_all [scalarBeq, pyHashable]

theorem isStrVal_hashable (x : PyVal) (h : isStrVal x = true) : pyHashable x = true := by
  cases x <;> simp_all [isStrVal, pyHashable]

theorem charListLe_total (xs ys : List Char) :
    charListLe xs ys = true ∨ charListLe ys xs = true := by
  induction xs generalizing ys with
  | nil => exact Or.inl rfl
  | cons x xs ih =>
    cases ys with
    | nil => exact Or.inr rfl
    | cons y ys =>
      by_cases hxy : x = y
      · subst hxy
        rcases ih ys with h | h
        · exact Or.inl (by simp [charListLe, h])
        · exact Or.inr (by simp [charListLe, h])
      · rcases lt_or_gt_of_ne hxy with h | h
        · exact Or.inl (by simp [charListLe, hxy, h])
        · exact Or.inr (by simp [charListLe, Ne.symm hxy, h])

theorem charListLe_trans (xs ys zs : List Char)
    (h1 : charListLe xs ys = true) (h2 : charListLe ys zs = true) :
    charListLe xs zs = true := by
  induction xs generalizing ys zs with
  | nil => rfl
  | cons x xs ih =>
    cases ys with
    | nil => simp [charListLe] at h1
    | cons y ys =>
      cases zs with
      | nil => simp [charListLe] at h2
      | cons z zs =>
        simp only [charListLe] at h1 h2 ⊢
        by_cases hxy : x = y
        · subst hxy
          simp only [if_pos rfl] at h1
          by_cases hyz : x = z
          · subst hyz
            simp only [if_pos rfl] at h2 ⊢
            exact ih ys zs h1 h2
          · simp only [if_neg hyz] at h2 ⊢
            exact h2
        · simp only [if_neg hxy] at h1
          have hxy' : x < y := of_decide_eq_true h1
          by_cases hyz : y = z
          · subst hyz
            simp only [if_neg hxy]
            exact h1
          · have hyz' : y < z := by
              simp only [if_neg hyz] at h2
              exact of_decide_eq_true h2
            have hxz : x < z := lt_trans hxy' hyz'
            simp only [if_neg (ne_of_lt hxz)]
            exact decide_eq_true hxz

instance : IsTotal String StrLe :=
  ⟨fun a b => charListLe_total a.data b.data⟩

instance : IsTrans String StrLe :=
  ⟨fun a b c => charListLe_trans a.data b.data c.data⟩

theorem pyDedupAux_mem (l : List PyVal) (seen : List PyVal)
    (hl : ∀ x ∈ l, pyHashable x = true) (x : PyVal) :
    x ∈ pyDedupAux seen l ↔ x ∈ l ∧ x ∉ seen := by
  induction l generalizing seen with
  | nil => simp [pyDedupAux]
  | cons a l ih =>
    have ha : pyHashable a = true := hl a (by simp)
    have hl' : ∀ x ∈ l, pyHashable x = true := fun y hy => hl y (by simp [hy])
    by_cases hmem : a ∈ seen
    · have hany : seen.any (fun y => scalarBeq y a) = true := by
        rw [List.any_eq_true]
        exact ⟨a, hmem, (scalarBeq_iff a a ha).mpr rfl⟩
      rw [pyDedupAux, if_pos hany, ih seen hl']
      constructor
      · rintro ⟨hx, hns⟩; exact ⟨by simp [hx], hns⟩
      · rintro ⟨hx, hns⟩
        rcases List.mem_cons.mp hx with rfl | hx
        · exact absurd hmem hns
        · exact ⟨hx, hns⟩
    · have hany : seen.any (fun y => scalarBeq y a) = false := by
        rw [Bool.eq_false_iff]
        intro hc
        rcases List.any_eq_true.mp hc with ⟨y, hy, hbeq⟩
        exact hmem (((scalarBeq_iff y a ha).mp hbeq) ▸ hy)
      rw [pyDedupAux, if_neg (by simp [hany]), List.mem_cons, ih (a :: seen) hl']
      constructor
      · rintro (rfl | ⟨hx, hns⟩)
        · exact ⟨by simp, hmem⟩
        · exact ⟨by simp [hx], fun hc => hns (by simp [hc])⟩
      · rintro ⟨hx, hns⟩
        rcases List.mem_cons.mp hx with rfl | hx
        · exact Or.inl rfl
        · by_cases hxa : x = a
          · exact Or.inl hxa
          · exact Or.inr ⟨hx, by simp [hxa, hns]⟩

theorem pyDedupAux_nodup (l : List PyVal) (seen : List PyVal)
    (hl : ∀ x ∈ l, pyHashable x = true) :
    (pyDedupAux seen l).Nodup := by
  induction l generalizing seen with
  | nil => simp [pyDedupAux]
  | cons a l ih =>
    have hl' : ∀ x ∈ l, pyHashable x = true := fun y hy => hl y (by simp [hy])
    rw [pyDedupAux]
    split
    · exact ih seen hl'
    · refine List.nodup_cons.mpr ⟨?_, ih (a :: seen) hl'⟩
      intro hc
      have := (pyDedupAux_mem l (a :: seen) hl' a).mp hc
      exact this.2 (by simp)

theorem asStrs_of_all_str (l : List PyVal) (h : l.all isStrVal = true) :
    ∃ ss : List String, asStrs l = some ss ∧ l = ss.map PyVal.str := by
  induction l with
  | nil => exact ⟨[], rfl, rfl⟩
  | cons a l ih =>
    rw [List.all_cons, Bool.and_eq_true] at h
    obtain ⟨ss, hss, hmap⟩ := ih h.2
    cases a with
    | str s => exact ⟨s :: ss, by simp [asStrs, hss], by simp [hmap]⟩
    | int n => simp [isStrVal] at h
    | list xs => simp [isStrVal] at h
    | dict es => simp [isStrVal] at h
    | none => simp [isStrVal] at h

-- ---------------------------------------------------------------------------
-- Behaviour of the resolver stages on well-shaped (string → list-of-string)
-- documents.
-- ---------------------------------------------------------------------------

theorem pySortedSet_strs (options : List PyVal)
    (hall : ∀ x ∈ options, isStrVal x = true) :
    ∃ ss : List String, pySortedSet options = .ok (ss.map PyVal.str) ∧
      List.Sorted StrLe ss ∧ ss.Nodup ∧
      ∀ s : String, s ∈ ss ↔ PyVal.str s ∈ options ∧ s ≠ "" := by
  have htr_str : ∀ x ∈ options.filter pyTruthy, isStrVal x = true :=
    fun x hx => hall x (List.mem_filter.mp hx).1
  have hhash_mem : ∀ x ∈ options.filter pyTruthy, pyHashable x = true :=
    fun x hx => isStrVal_hashable x (htr_str x hx)
  have hhash : (options.filter pyTruthy).all pyHashable = true :=
    List.all_eq_true.mpr hhash_mem
  have hdd_mem : ∀ x, x ∈ pyDedup (options.filter pyTruthy) ↔ x ∈ options.filter pyTruthy := by
    intro x
    rw [pyDedup]
    simpa using pyDedupAux_mem (options.filter pyTruthy) [] hhash_mem x
  have hdd_nodup : (pyDedup (options.filter pyTruthy)).Nodup :=
    pyDedupAux_nodup (options.filter pyTruthy) [] hhash_mem
  have hdd_str : (pyDedup (options.filter pyTruthy)).all isStrVal = true :=
    List.all_eq_true.mpr (fun x hx => htr_str x ((hdd_mem x).mp hx))
  obtain ⟨ss, hss, hmap⟩ := asStrs_of_all_str _ hdd_str
  refine ⟨List.insertionSort StrLe ss, ?_, List.sorted_insertionSort StrLe ss, ?_, ?_⟩
  · simp only [pySortedSet]
    rw [if_pos hhash, hss]
  · have hss_nodup : ss.Nodup := by
      have hmn : (ss.map PyVal.str).Nodup := hmap ▸ hdd_nodup
      exact hmn.of_map
    exact ((List.perm_insertionSort StrLe ss).nodup_iff).mpr hss_nodup
  · intro s
    rw [(List.perm_insertionSort StrLe ss).mem_iff]
    have hs_dd : s ∈ ss ↔ PyVal.str s ∈ pyDedup (options.filter pyTruthy) := by
      rw [hmap, List.mem_map]
      constructor
      · intro h; exact ⟨s, h, rfl⟩
      · rintro ⟨a, ha, hee⟩
        cases hee
        exact ha
    rw [hs_dd, hdd_mem, List.mem_filter]
    simp [pyTruthy]

theorem pyGet_wellTyped (entries : List (PyVal × PyVal)) (k : String) (v : PyVal)
    (hw : wellTypedDoc entries = true) (h : pyGet entries k = some v) :
    isStrListVal v = true := by
  rw [pyGet] at h
  cases hf : entries.find? (fun p => keyEqStr p.1 k) with
  | none => rw [hf] at h; simp at h
  | some pr =>
    rw [hf] at h
    simp only [Option.map_some', Option.some.injEq] at h
    subst h
    have hmem := List.mem_of_find?_eq_some hf
    have hp := List.all_eq_true.mp hw _ hmem
    rw [Bool.and_eq_true] at hp
    exact hp.2

theorem directOptions_all_str (entries : List (PyVal × PyVal)) (k : String)
    (hw : wellTypedDoc entries = true) :
    ∀ x ∈ directOptions entries k, isStrVal x = true := by
  intro x hx
  rw [directOptions] at hx
  cases hg : pyGet entries k with
  | none => rw [hg] at hx; simp at hx
  | some v =>
    rw [hg] at hx
    have hv := pyGet_wellTyped entries k v hw hg
    cases v with
    | list vs =>
      rw [isStrListVal, List.all_eq_true] at hv
      exact hv x hx
    | str s => simp at hx
    | int n => simp at hx
    | dict es => simp at hx
    | none => simp at hx

theorem legacyOptions_wellTyped (entries : List (PyVal × PyVal)) (k : String)
    (hw : wellTypedDoc entries = true) :
    ∃ ms, legacyOptions entries k = .ok ms ∧ (∀ x ∈ ms, isStrVal x = true) ∧
      ∀ x, x ∈ ms ↔ ∃ s vs, (PyVal.str s, PyVal.list vs) ∈ entries ∧ s ≠ k ∧
        endsWithChars s ("_" ++ k) = true ∧ x ∈ vs := by
  induction entries with
  | nil => exact ⟨[], rfl, by simp, by simp⟩
  | cons p rest ih =>
    rw [wellTypedDoc, List.all_cons, Bool.and_eq_true] at hw
    obtain ⟨hp, hrest⟩ := hw
    rw [Bool.and_eq_true] at hp
    obtain ⟨ms, hms, hms_str, hms_mem⟩ := ih hrest
    obtain ⟨key, value⟩ := p
    have hkeyT := hp.1
    have hvalT := hp.2
    obtain ⟨s, rfl⟩ : ∃ s, key = PyVal.str s := by
      cases key
      case str s => exact ⟨s, rfl⟩
      all_goals rw [isStrVal] at hkeyT
      all_goals cases hkeyT
    obtain ⟨vs, rfl⟩ : ∃ vs, value = PyVal.list vs := by
      cases value
      case list vs => exact ⟨vs, rfl⟩
      all_goals rw [isStrListVal] at hvalT
      all_goals cases hvalT
    have hvs_str : ∀ x ∈ vs, isStrVal x = true := by
      have := hvalT
      rw [isStrListVal, List.all_eq_true] at this
      exact this
    by_cases hsk : s = k
    · subst hsk
      have hkey : keyEqStr (PyVal.str s) s = true := by simp [keyEqStr]
      refine ⟨ms, ?_, hms_str, ?_⟩
      · rw [legacyOptions, if_pos hkey]
        exact hms
      · intro x
        rw [hms_mem x]
        constructor
        · rintro ⟨s', vs', hmem, hne, hend, hx⟩
          exact ⟨s', vs', List.mem_cons_of_mem _ hmem, hne, hend, hx⟩
        · rintro ⟨s', vs', hmem, hne, hend, hx⟩
          rcases List.mem_cons.mp hmem with heq | hmem'
          · rw [Prod.mk.injEq, PyVal.str.injEq] at heq
            exact absurd heq.1 hne
          · exact ⟨s', vs', hmem', hne, hend, hx⟩
    · have hkey : keyEqStr (PyVal.str s) k = false := by
        simp [keyEqStr, hsk]
      by_cases hend : endsWithChars s ("_" ++ k) = true
      · refine ⟨vs ++ ms, ?_, ?_, ?_⟩
        · rw [legacyOptions, if_neg (by simp [hkey]), hms]
          simp [hend]
        · intro x hx
          rcases List.mem_append.mp hx with h | h
          · exact hvs_str x h
          · exact hms_str x h
        · intro x
          rw [List.mem_append, hms_mem x]
          constructor
          · rintro (hx | ⟨s', vs', hmem, hne, hend', hx⟩)
            · exact ⟨s, vs, List.mem_cons_self _ _, hsk, hend, hx⟩
            · exact ⟨s', vs', List.mem_cons_of_mem _ hmem, hne, hend', hx⟩
          · rintro ⟨s', vs', hmem, hne, hend', hx⟩
            rcases List.mem_cons.mp hmem with heq | hmem'
            · rw [Prod.mk.injEq, PyVal.str.injEq, PyVal.list.injEq] at heq
              exact Or.inl (heq.2 ▸ hx)
            · exact Or.inr ⟨s', vs', hmem', hne, hend', hx⟩
      · rw [Bool.not_eq_true] at hend
        refine ⟨ms, ?_, hms_str, ?_⟩
        · rw [legacyOptions, if_neg (by simp [hkey])]
          simp [hend]
          exact hms
        · intro x
          rw [hms_mem x]
          constructor
          · rintro ⟨s', vs', hmem, hne, hend', hx⟩
            exact ⟨s', vs', List.mem_cons_of_mem _ hmem, hne, hend', hx⟩
          · rintro ⟨s', vs', hmem, hne, hend', hx⟩
            rcases List.mem_cons.mp hmem with heq | hmem'
            · rw [Prod.mk.injEq, PyVal.str.injEq, PyVal.list.injEq] at heq
              rw [heq.1] at hend'
              rw [hend'] at hend
              cases hend
            · exact ⟨s', vs', hmem', hne, hend', hx⟩

theorem resolve_wellTyped_master (entries : List (PyVal × PyVal)) (k : String)
    (hw : wellTypedDoc entries = true) (hk : k ≠ "") :
    ∃ ss : List String,
      resolve_taxonomy_options (.dict entries) k = .ok (ss.map PyVal.str) ∧
      List.Sorted StrLe ss ∧ ss.Nodup ∧
      ∀ x : String, x ∈ ss ↔ x ≠ "" ∧
        (PyVal.str x ∈ directOptions entries k ∨
         ∃ s vs, (PyVal.str s, PyVal.list vs) ∈ entries ∧ s ≠ k ∧
           endsWithChars s ("_" ++ k) = true ∧ PyVal.str x ∈ vs) := by
  obtain ⟨ms, hms, hms_str, hms_mem⟩ := legacyOptions_wellTyped entries k hw
  have hdir := directOptions_all_str entries k hw
  have hall : ∀ x ∈ directOptions entries k ++ ms, isStrVal x = true := by
    intro x hx
    rcases List.mem_append.mp hx with h | h
    · exact hdir x h
    · exact hms_str x h
  obtain ⟨ss, hok, hsorted, hnodup, hmem⟩ := pySortedSet_strs _ hall
  refine ⟨ss, ?_, hsorted, hnodup, ?_⟩
  · simp only [resolve_taxonomy_options]
    rw [if_neg hk, hms]
    exact hok
  · intro x
    rw [hmem x, List.mem_append]
    constructor
    · rintro ⟨hx | hx, hne⟩
      · exact ⟨hne, Or.inl hx⟩
      · exact ⟨hne, Or.inr ((hms_mem _).mp hx)⟩
    · rintro ⟨hne, hx | hx⟩
      · exact ⟨Or.inl hx, hne⟩
      · exact ⟨Or.inr ((hms_mem _).mpr hx), hne⟩

-- ---------------------------------------------------------------------------
-- Behaviour of the extractor stages.
-- ---------------------------------------------------------------------------

theorem otherBuckets_all_str (entries : List (PyVal × PyVal))
    (hw : wellTypedDoc entries = true) :
    ∀ x ∈ otherBuckets entries, isStrVal x = true := by
  induction entries with
  | nil => simp [otherBuckets]
  | cons p rest ih =>
    rw [wellTypedDoc, List.all_cons, Bool.and_eq_true] at hw
    obtain ⟨hp, hrest⟩ := hw
    rw [Bool.and_eq_true] at hp
    obtain ⟨key, value⟩ := p
    have hvalT := hp.2
    obtain ⟨vs, rfl⟩ : ∃ vs, value = PyVal.list vs := by
      cases value
      case list vs => exact ⟨vs, rfl⟩
      all_goals rw [isStrListVal] at hvalT
      all_goals cases hvalT
    have hvs_str : ∀ x ∈ vs, isStrVal x = true := by
      rw [isStrListVal, List.all_eq_true] at hvalT
      exact hvalT
    intro x hx
    rw [otherBuckets] at hx
    by_cases hk : keyEqStr key "list" = true
    · rw [if_pos hk] at hx
      exact ih hrest x hx
    · rw [if_neg hk] at hx
      rcases List.mem_append.mp hx with h | h
      · exact hvs_str x h
      · exact ih hrest x h

theorem collectedPrograms_all_str (entries : List (PyVal × PyVal))
    (hw : wellTypedDoc entries = true) :
    ∀ x ∈ collectedPrograms entries, isStrVal x = true := by
  intro x hx
  rw [collectedPrograms] at hx
  rcases List.mem_append.mp hx with h | h
  · cases hg : pyGet entries "list" with
    | none => rw [hg] at h; simp at h
    | some v =>
      rw [hg] at h
      have hv := pyGet_wellTyped entries "list" v hw hg
      cases v with
      | list vs =>
        rw [isStrListVal, List.all_eq_true] at hv
        exact hv x h
      | str s => simp at h
      | int n => simp at h
      | dict es => simp at h
      | none => simp at h
  · exact otherBuckets_all_str entries hw x h

theorem dedupePrograms_ok (ps : List PyVal) (seen : List PyVal)
    (h : ∀ x ∈ ps, pyHashable x = true) :
    ∃ l, dedupePrograms seen ps = .ok l := by
  induction ps generalizing seen with
  | nil => exact ⟨[], rfl⟩
  | cons program rest ih =>
    have hh : pyHashable program = true := h program (by simp)
    have h' : ∀ x ∈ rest, pyHashable x = true := fun x hx => h x (by simp [hx])
    simp only [dedupePrograms]
    by_cases ht : pyTruthy program = true
    · rw [if_neg (by simp [ht]), if_neg (by simp [hh])]
      by_cases hseen : (seen.any fun y => scalarBeq y program) = true
      · rw [if_pos hseen]
        exact ih seen h'
      · rw [if_neg hseen]
        obtain ⟨l, hl⟩ := ih ((if keyEqStr program "خاص" then PyVal.str "تحكم" else program) :: seen) h'
        rw [hl]
        exact ⟨_, rfl⟩
    · have ht' : pyTruthy program = false := by
        cases hpt : pyTruthy program
        · rfl
        · exact absurd hpt ht
      rw [if_pos (by simp [ht'])]
      exact ih seen h'

theorem dedupePrograms_spec (ps : List PyVal) (seen : List PyVal) (l : List PyVal)
    (h : dedupePrograms seen ps = .ok l) :
    PyVal.str "خاص" ∉ l ∧ ∀ x ∈ l, pyTruthy x = true := by
  induction ps generalizing seen l with
  | nil =>
    rw [dedupePrograms] at h
    cases h
    exact ⟨by simp, by simp⟩
  | cons program rest ih =>
    simp only [dedupePrograms] at h
    split at h
    next hcond1 => exact ih seen l h
    next hcond1 =>
      split at h
      next hcond2 => cases h
      next hcond2 =>
        split at h
        next hcond3 => exact ih seen l h
        next hcond3 =>
          split at h
          next l' hl' =>
            cases h
            have htr : pyTruthy program = true := by
              cases hpt : pyTruthy program
              · rw [hpt] at hcond1; simp at hcond1
              · rfl
            obtain ⟨ihk, iht⟩ := ih _ _ hl'
            constructor
            · intro hc
              rcases List.mem_cons.mp hc with heq | hmem
              · by_cases hk : keyEqStr program "خاص" = true
                · rw [if_pos hk] at heq
                  injection heq with hstr
                  exact absurd hstr (by decide)
                · rw [if_neg hk] at heq
                  apply hk
                  rw [← heq]
                  rfl
              · exact ihk hmem
            · intro x hx
              rcases List.mem_cons.mp hx with heq | hmem
              · subst heq
                by_cases hk : keyEqStr program "خاص" = true
                · rw [if_pos hk]
                  rfl
                · rw [if_neg hk]
                  exact htr
              · exact iht x hmem
          next e hl' => cases h

theorem dedupePrograms_nodup (ps : List PyVal) (seen : List PyVal) (l : List PyVal)
    (hkh : PyVal.str "خاص" ∉ ps) (h : dedupePrograms seen ps = .ok l) :
    (∀ x ∈ l, x ∉ seen) ∧ l.Nodup := by
  induction ps generalizing seen l with
  | nil =>
    rw [dedupePrograms] at h
    cases h
    exact ⟨by simp, List.nodup_nil⟩
  | cons program rest ih =>
    have hkh_rest : PyVal.str "خاص" ∉ rest := fun hc => hkh (List.mem_cons_of_mem _ hc)
    have hkh_head : program ≠ PyVal.str "خاص" := fun hc => hkh (hc ▸ List.mem_cons_self _ _)
    simp only [dedupePrograms] at h
    split at h
    next hcond1 => exact ih seen l hkh_rest h
    next hcond1 =>
      split at h
      next hcond2 => cases h
      next hcond2 =>
        split at h
        next hcond3 => exact ih seen l hkh_rest h
        next hcond3 =>
          have hkeq : keyEqStr program "خاص" = false := by
            cases hkq : keyEqStr program "خاص"
            · rfl
            · exact absurd ((keyEqStr_iff program "خاص").mp hkq) hkh_head
          rw [if_neg (by simp [hkeq])] at h
          split at h
          next l' hl' =>
            cases h
            have hhash : pyHashable program = true := by
              cases hph : pyHashable program
              · rw [hph] at hcond2; simp at hcond2
              · rfl
            have hnotseen : program ∉ seen := by
              intro hc
              apply hcond3
              rw [List.any_eq_true]
              exact ⟨program, hc, (scalarBeq_iff program program hhash).mpr rfl⟩
            obtain ⟨ihseen, ihnodup⟩ := ih (program :: seen) l' hkh_rest hl'
            constructor
            · intro x hx
              rcases List.mem_cons.mp hx with heq | hmem
              · exact heq ▸ hnotseen
              · intro hc
                exact ihseen x hmem (List.mem_cons_of_mem _ hc)
            · refine List.nodup_cons.mpr ⟨?_, ihnodup⟩
              intro hc
              exact ihseen program hc (List.mem_cons_self _ _)
          next e hl' => cases h

-- Sanity examples for the added components.
example : build_compound_key [("program", "p"), ("subject", "s")] "subject" = "p_s" := rfl
example : build_compound_key [("program", "p"), ("term", "t"), ("subject", "s")] "term" = "p_t" := rfl
example : reportRun [] [0, 10, 20, 30, 4000] =
    [(0, true), (10, true), (20, true), (30, false), (4000, true)] := rfl
example : (get_taxonomy_doc (fun _ => PyVal.dict []) [] 0 "terms").fetches = 1 := rfl
example : (get_taxonomy_doc (fun _ => PyVal.dict [])
    (get_taxonomy_doc (fun _ => PyVal.dict []) [] 0 "terms").state 100 "terms").fetches = 0 := rfl

-- ---------------------------------------------------------------------------
-- Supporting lemmas for the compound key builder and the rate limiter.
-- ---------------------------------------------------------------------------

theorem buildKeyParts_eq_filterMap (path : List (String × String)) (key_name : String)
    (order : List String) :
    buildKeyParts path key_name order =
      (takeThrough order key_name).filterMap (pathLookup path) := by
  induction order with
  | nil => rfl
  | cons k rest ih =>
    simp only [buildKeyParts, takeThrough]
    by_cases hk : (k == key_name) = true
    · rw [if_pos hk, if_pos hk]
      cases hlk : pathLookup path k <;> simp [hlk]
    · rw [if_neg hk, if_neg hk, List.filterMap_cons, ih]
      cases hlk : pathLookup path k <;> simp [hlk]

theorem pathLookup_mem (path : List (String × String)) (k v : String)
    (h : pathLookup path k = some v) : ∃ pr ∈ path, pr.2 = v := by
  rw [pathLookup] at h
  cases hf : path.find? (fun p => p.1 == k) with
  | none => rw [hf] at h; simp at h
  | some pr =>
    rw [hf] at h
    simp only [Option.map_some', Option.some.injEq] at h
    exact ⟨pr, List.mem_of_find?_eq_some hf, h⟩

theorem length_filter_le_of_imp {α : Type} (l : List α) (p q : α → Bool)
    (h : ∀ x ∈ l, p x = true → q x = true) :
    (l.filter p).length ≤ (l.filter q).length := by
  induction l with
  | nil => simp
  | cons a l ih =>
    have h' : ∀ x ∈ l, p x = true → q x = true := fun x hx => h x (by simp [hx])
    rw [List.filter_cons, List.filter_cons]
    by_cases hp : p a = true
    · rw [if_pos hp, if_pos (h a (by simp) hp)]
      simpa using ih h'
    · rw [if_neg (by simp [hp])]
      by_cases hq : q a = true
      · rw [if_pos hq]
        exact le_trans (ih h') (by simp)
      · rw [if_neg (by simp [hq])]
        exact ih h'

theorem recentReports_append (a b : List Nat) (now : Nat) :
    recentReports (a ++ b) now = recentReports a now ++ recentReports b now := by
  rw [recentReports, recentReports, recentReports, List.filter_append]

theorem recentReports_idem (acc : List Nat) (t now : Nat)
    (hle : ∀ x ∈ acc, x ≤ t) (htn : t ≤ now) :
    recentReports (recentReports acc t) now = recentReports acc now := by
  rw [recentReports, recentReports, recentReports, List.filter_filter]
  apply List.filter_congr
  intro x hx
  have hxt : x ≤ t := hle x hx
  by_cases hb : now - x < reportWindow
  · have hc : t - x < reportWindow := by omega
    simp [hb, hc]
  · simp [hb]

theorem acceptedTimes_cons_true (t : Nat) (evs : List (Nat × Bool)) :
    acceptedTimes ((t, true) :: evs) = t :: acceptedTimes evs := by
  simp [acceptedTimes]

theorem acceptedTimes_cons_false (t : Nat) (evs : List (Nat × Bool)) :
    acceptedTimes ((t, false) :: evs) = acceptedTimes evs := by
  simp [acceptedTimes]

theorem reportRun_master (times : List Nat) (tracker acc : List Nat) (T : Nat)
    (ht : ∀ t ∈ times, T ≤ t) (hsort : List.Sorted (· ≤ ·) times)
    (hinv : ∀ now, T ≤ now → recentReports tracker now = recentReports acc now)
    (hle : ∀ x ∈ acc, x ≤ T)
    (hwin : ∀ w, (acc.filter (inWin w)).length ≤ reportLimit) :
    (∀ pre now b post, reportRun tracker times = pre ++ (now, b) :: post →
        (b = true ↔ (recentReports (acc ++ acceptedTimes pre) now).length < reportLimit)) ∧
    (∀ w, ((acc ++ acceptedTimes (reportRun tracker times)).filter (inWin w)).length
        ≤ reportLimit) := by
  induction times generalizing tracker acc T with
  | nil =>
    constructor
    · intro pre now b post hdecomp
      rw [reportRun] at hdecomp
      exact absurd hdecomp (by simp)
    · intro w
      rw [reportRun]
      simpa [acceptedTimes] using hwin w
  | cons t rest ih =>
    have hTt : T ≤ t := ht t (by simp)
    rw [List.sorted_cons] at hsort
    obtain ⟨ht', hsort'⟩ := hsort
    have hrecent : recentReports tracker t = recentReports acc t := hinv t hTt
    have hle_t : ∀ x ∈ acc, x ≤ t := fun x hx => le_trans (hle x hx) hTt
    simp only [reportRun]
    by_cases hlim : reportLimit ≤ (recentReports tracker t).length
    · rw [if_pos hlim]
      have hinv' : ∀ now, t ≤ now →
          recentReports (recentReports tracker t) now = recentReports acc now := by
        intro now htn
        rw [hrecent]
        exact recentReports_idem acc t now hle_t htn
      obtain ⟨ih1, ih2⟩ := ih (recentReports tracker t) acc t ht' hsort' hinv' hle_t hwin
      constructor
      · intro pre now b post hdecomp
        cases pre with
        | nil =>
          rw [List.nil_append] at hdecomp
          injection hdecomp with h1 h2
          obtain ⟨rfl, rfl⟩ : t = now ∧ false = b := Prod.mk.inj h1
          rw [acceptedTimes, List.filter_nil, List.map_nil, List.append_nil, ← hrecent]
          exact iff_of_false (by simp) (by omega)
        | cons e pre' =>
          rw [List.cons_append] at hdecomp
          injection hdecomp with h1 h2
          rw [← h1, acceptedTimes_cons_false]
          exact ih1 pre' now b post h2
      · intro w
        rw [acceptedTimes_cons_false]
        exact ih2 w
    · rw [if_neg hlim]
      have hlt : (recentReports acc t).length < reportLimit := by
        rw [← hrecent]; omega
      have hinv' : ∀ now, t ≤ now →
          recentReports (recentReports tracker t ++ [t]) now =
            recentReports (acc ++ [t]) now := by
        intro now htn
        rw [recentReports_append, recentReports_append, hrecent]
        rw [recentReports_idem acc t now hle_t htn]
      have hle' : ∀ x ∈ acc ++ [t], x ≤ t := by
        intro x hx
        rcases List.mem_append.mp hx with h | h
        · exact hle_t x h
        · simp at h; omega
      have hwin' : ∀ w, ((acc ++ [t]).filter (inWin w)).length ≤ reportLimit := by
        intro w
        rw [List.filter_append, List.length_append]
        by_cases hw : inWin w t = true
        · have hsub : (acc.filter (inWin w)).length ≤
              (acc.filter (fun ts => decide (t - ts < reportWindow))).length := by
            apply length_filter_le_of_imp
            intro x hx hin
            rw [inWin, Bool.and_eq_true, decide_eq_true_eq, decide_eq_true_eq] at hin
            have hwt : w < t ∧ t ≤ w + reportWindow := by
              rw [inWin, Bool.and_eq_true, decide_eq_true_eq, decide_eq_true_eq] at hw
              exact hw
            rw [decide_eq_true_eq]
            omega
          have hlen : (acc.filter (fun ts => decide (t - ts < reportWindow))).length
              < reportLimit := hlt
          have : ([t].filter (inWin w)).length ≤ 1 := by
            simp [List.filter]
            split <;> simp
          omega
        · have : ([t].filter (inWin w)).length = 0 := by
            simp [List.filter_cons, hw]
          rw [this]
          simpa using hwin w
      obtain ⟨ih1, ih2⟩ :=
        ih (recentReports tracker t ++ [t]) (acc ++ [t]) t ht' hsort' hinv' hle' hwin'
      constructor
      · intro pre now b post hdecomp
        cases pre with
        | nil =>
          rw [List.nil_append] at hdecomp
          injection hdecomp with h1 h2
          obtain ⟨rfl, rfl⟩ : t = now ∧ true = b := Prod.mk.inj h1
          rw [acceptedTimes, List.filter_nil, List.map_nil, List.append_nil]
          exact iff_of_true rfl hlt
        | cons e pre' =>
          rw [List.cons_append] at hdecomp
          injection hdecomp with h1 h2
          rw [← h1, acceptedTimes_cons_true, List.append_cons]
          exact ih1 pre' now b post h2
      · intro w
        rw [acceptedTimes_cons_true, List.append_cons]
        exact ih2 w

-- ---------------------------------------------------------------------------
-- Claim theorems.
-- ---------------------------------------------------------------------------

/-- Claim C1: for every document mapping string keys to lists of strings and
every lookup key, `resolve_taxonomy_options` returns (without error) a list
of strings that is sorted in the Python string order, contains no duplicate
entries, and contains no empty (falsy) entries. -/
theorem resolve_taxonomy_options_sorted_dedup_nonempty
    (entries : List (PyVal × PyVal)) (k : String)
    (hw : wellTypedDoc entries = true) :
    ∃ ss : List String,
      resolve_taxonomy_options (.dict entries) k = .ok (ss.map PyVal.str) ∧
      List.Sorted StrLe ss ∧ ss.Nodup ∧ "" ∉ ss := by
  by_cases hk : k = ""
  · subst hk
    exact ⟨[], rfl, by simp, by simp, by simp⟩
  · obtain ⟨ss, hok, hsorted, hnodup, hmem⟩ := resolve_wellTyped_master entries k hw hk
    exact ⟨ss, hok, hsorted, hnodup, fun hc => ((hmem "").mp hc).1 rfl⟩

/-- Witness for C1 at a concrete document and key. -/
theorem resolve_taxonomy_options_sorted_dedup_nonempty_witness :
    wellTypedDoc [(PyVal.str "A_program", PyVal.list [PyVal.str "x", PyVal.str "y"]),
                  (PyVal.str "program", PyVal.list [PyVal.str "y", PyVal.str "z"])] = true ∧
    ∃ ss : List String,
      resolve_taxonomy_options
          (.dict [(PyVal.str "A_program", PyVal.list [PyVal.str "x", PyVal.str "y"]),
                  (PyVal.str "program", PyVal.list [PyVal.str "y", PyVal.str "z"])])
          "program" = .ok (ss.map PyVal.str) ∧
      List.Sorted StrLe ss ∧ ss.Nodup ∧ "" ∉ ss :=
  ⟨rfl, resolve_taxonomy_options_sorted_dedup_nonempty _ _ rfl⟩

/-- Claim C2: `resolve_taxonomy_options` collects the values stored directly
under the lookup key (when present and a list) together with the values of
every other key that is not equal to the lookup key but ends with `"_"`
followed by the lookup key, and returns their deduplicated sorted union; in
particular the two concrete examples of the spec hold. -/
theorem resolve_taxonomy_options_collects_union :
    (∀ (entries : List (PyVal × PyVal)) (k : String),
        wellTypedDoc entries = true → k ≠ "" →
        ∃ ss : List String,
          resolve_taxonomy_options (.dict entries) k = .ok (ss.map PyVal.str) ∧
          ∀ x : String, x ∈ ss ↔ x ≠ "" ∧
            (PyVal.str x ∈ directOptions entries k ∨
             ∃ s vs, (PyVal.str s, PyVal.list vs) ∈ entries ∧ s ≠ k ∧
               endsWithChars s ("_" ++ k) = true ∧ PyVal.str x ∈ vs)) ∧
    resolve_taxonomy_options
        (.dict [(.str "A_program", .list [.str "x", .str "y"]),
                (.str "program", .list [.str "y", .str "z"])]) "program"
      = .ok [.str "x", .str "y", .str "z"] ∧
    resolve_taxonomy_options
        (.dict [(.str "cs_term1", .list [.str "Math"]),
                (.str "term1", .list [.str "Math", .str "Physics"])]) "term1"
      = .ok [.str "Math", .str "Physics"] := by
  refine ⟨?_, rfl, rfl⟩
  intro entries k hw hk
  obtain ⟨ss, hok, _, _, hmem⟩ := resolve_wellTyped_master entries k hw hk
  exact ⟨ss, hok, hmem⟩

/-- Witness for C2 instantiating the universally quantified part. -/
theorem resolve_taxonomy_options_collects_union_witness :
    wellTypedDoc [(PyVal.str "cs_term1", PyVal.list [PyVal.str "Math"]),
                  (PyVal.str "term1", PyVal.list [PyVal.str "Math", PyVal.str "Physics"])] = true ∧
    (("term1" : String) ≠ "") ∧
    ∃ ss : List String,
      resolve_taxonomy_options
          (.dict [(PyVal.str "cs_term1", PyVal.list [PyVal.str "Math"]),
                  (PyVal.str "term1", PyVal.list [PyVal.str "Math", PyVal.str "Physics"])])
          "term1" = .ok (ss.map PyVal.str) ∧
      ∀ x : String, x ∈ ss ↔ x ≠ "" ∧
        (PyVal.str x ∈ directOptions
            [(PyVal.str "cs_term1", PyVal.list [PyVal.str "Math"]),
             (PyVal.str "term1", PyVal.list [PyVal.str "Math", PyVal.str "Physics"])] "term1" ∨
         ∃ s vs, (PyVal.str s, PyVal.list vs) ∈
             [(PyVal.str "cs_term1", PyVal.list [PyVal.str "Math"]),
              (PyVal.str "term1", PyVal.list [PyVal.str "Math", PyVal.str "Physics"])] ∧
           s ≠ "term1" ∧ endsWithChars s ("_" ++ "term1") = true ∧ PyVal.str x ∈ vs) :=
  ⟨rfl, by decide,
   resolve_taxonomy_options_collects_union.1 _ "term1" rfl (by decide)⟩

/-- Claim C3: `resolve_taxonomy_options` returns the empty list, without
raising, whenever the document is not a mapping or the lookup key is the
empty string; in particular `resolve({}, "x") = []`. -/
theorem resolve_taxonomy_options_empty_cases :
    (∀ (doc : PyVal) (k : String),
        ((∀ entries, doc ≠ PyVal.dict entries) ∨ k = "") →
        resolve_taxonomy_options doc k = .ok []) ∧
    resolve_taxonomy_options (.dict []) "x" = .ok [] := by
  refine ⟨?_, rfl⟩
  intro doc k h
  rcases h with h | rfl
  · cases doc with
    | dict entries => exact absurd rfl (h entries)
    | str s => rfl
    | int n => rfl
    | list xs => rfl
    | none => rfl
  · cases doc with
    | dict entries => rfl
    | str s => rfl
    | int n => rfl
    | list xs => rfl
    | none => rfl

/-- Witness for C3 at a non-mapping document and at an empty key. -/
theorem resolve_taxonomy_options_empty_cases_witness :
    resolve_taxonomy_options (PyVal.int 7) "x" = .ok [] ∧
    resolve_taxonomy_options
        (.dict [(PyVal.str "a", PyVal.list [PyVal.str "b"])]) "" = .ok [] :=
  ⟨resolve_taxonomy_options_empty_cases.1 _ "x"
      (Or.inl (fun _ h => PyVal.noConfusion h)),
   resolve_taxonomy_options_empty_cases.1 _ ""
      (Or.inr rfl)⟩

/-- Counterexample to C4 as stated: on the document
`{"list": ["تحكم", "خاص"]}` the extractor returns `["تحكم", "تحكم"]`, a list
with a duplicate entry, because the duplicate check runs on the original
name while the rewritten name is recorded. -/
theorem extract_program_list_dup_counterexample :
    extract_program_list (.dict [(.str "list", .list [.str "تحكم", .str "خاص"])])
      = .ok [.str "تحكم", .str "تحكم"] ∧
    ¬ ([PyVal.str "تحكم", PyVal.str "تحكم"] : List PyVal).Nodup := by
  refine ⟨rfl, ?_⟩
  intro h
  rw [List.nodup_cons] at h
  exact h.1 (by simp)

/-- Claim C4 (amended): the extractor concatenates the `"list"` bucket and
the other list-valued buckets in iteration order and deduplicates on the
pre-rewrite names preserving first-seen order; the concrete example holds,
the result never contains falsy entries, and it contains no duplicates
whenever the collected values do not contain `"خاص"`. -/
theorem extract_program_list_amended :
    extract_program_list
        (.dict [(.str "list", .list [.str "a", .str "b"]),
                (.str "year1", .list [.str "b", .str "c"])])
      = .ok [.str "a", .str "b", .str "c"] ∧
    (∀ (doc : PyVal) (l : List PyVal), extract_program_list doc = .ok l →
        ∀ x ∈ l, pyTruthy x = true) ∧
    (∀ (entries : List (PyVal × PyVal)) (l : List PyVal),
        PyVal.str "خاص" ∉ collectedPrograms entries →
        extract_program_list (.dict entries) = .ok l → l.Nodup) := by
  refine ⟨rfl, ?_, ?_⟩
  · intro doc l h
    cases doc with
    | dict entries => exact (dedupePrograms_spec _ _ _ h).2
    | str s => cases h; simp
    | int n => cases h; simp
    | list xs => cases h; simp
    | none => cases h; simp
  · intro entries l hkh h
    exact (dedupePrograms_nodup _ _ _ hkh h).2

/-- Witness for the amended C4 at a concrete document. -/
theorem extract_program_list_amended_witness :
    PyVal.str "خاص" ∉ collectedPrograms [(PyVal.str "list", PyVal.list [PyVal.str "a"])] ∧
    (∀ x ∈ ([PyVal.str "a"] : List PyVal), pyTruthy x = true) ∧
    ([PyVal.str "a"] : List PyVal).Nodup := by
  have hcol : collectedPrograms [(PyVal.str "list", PyVal.list [PyVal.str "a"])]
      = [PyVal.str "a"] := rfl
  have hnk : PyVal.str "خاص" ∉ collectedPrograms
      [(PyVal.str "list", PyVal.list [PyVal.str "a"])] := by
    rw [hcol]
    intro hc
    rw [List.mem_singleton] at hc
    injection hc with hs
    exact absurd hs (by decide)
  exact ⟨hnk,
    extract_program_list_amended.2.1
      (PyVal.dict [(PyVal.str "list", PyVal.list [PyVal.str "a"])]) _ rfl,
    extract_program_list_amended.2.2
      [(PyVal.str "list", PyVal.list [PyVal.str "a"])] _ hnk rfl⟩

/-- Claim C5: every surviving occurrence of `"خاص"` is rewritten to
`"تحكم"` before being appended, the duplicate check running on the original
name; consequently the returned list never contains `"خاص"`.  The second
conjunct shows the pre-rewrite duplicate check: a second `"خاص"` is not
considered a duplicate of the recorded `"تحكم"`. -/
theorem extract_program_list_khas_rewrite :
    (∀ (doc : PyVal) (l : List PyVal), extract_program_list doc = .ok l →
        PyVal.str "خاص" ∉ l) ∧
    extract_program_list (.dict [(.str "list", .list [.str "خاص", .str "خاص"])])
      = .ok [.str "تحكم", .str "تحكم"] := by
  refine ⟨?_, rfl⟩
  intro doc l h
  cases doc with
  | dict entries => exact (dedupePrograms_spec _ _ _ h).1
  | str s => cases h; simp
  | int n => cases h; simp
  | list xs => cases h; simp
  | none => cases h; simp

/-- Witness for C5 at a concrete document containing `"خاص"`. -/
theorem extract_program_list_khas_rewrite_witness :
    extract_program_list (.dict [(PyVal.str "list", PyVal.list [PyVal.str "خاص"])])
      = .ok [PyVal.str "تحكم"] ∧
    PyVal.str "خاص" ∉ ([PyVal.str "تحكم"] : List PyVal) :=
  ⟨rfl, extract_program_list_khas_rewrite.1
      (PyVal.dict [(PyVal.str "list", PyVal.list [PyVal.str "خاص"])]) _ rfl⟩

/-- Counterexample to C6 as stated: malformed inputs on which the resolver
and the extractor raise — a non-string key with a list value makes
`key.endswith` raise `AttributeError`, an unhashable entry makes the set
membership test raise `TypeError`, and mixed int/str entries make `sorted`
raise `TypeError`. -/
theorem resolver_extractor_raise_counterexample :
    resolve_taxonomy_options (.dict [(.int 1, .list [.str "a"])]) "x"
      = .error .attributeError ∧
    extract_program_list (.dict [(.str "k", .list [.list [.str "a"]])])
      = .error .typeError ∧
    resolve_taxonomy_options (.dict [(.str "k", .list [.int 1, .str "a"])]) "k"
      = .error .typeError :=
  ⟨rfl, rfl, rfl⟩

/-- Claim C6 (amended): the resolver and the extractor never raise on a
document that is not a mapping, nor on a mapping from string keys to lists
of strings; only other malformed shapes can raise. -/
theorem resolver_extractor_no_error_wellTyped :
    ∀ (doc : PyVal) (k : String),
      (∀ entries, doc = PyVal.dict entries → wellTypedDoc entries = true) →
      (∃ l, resolve_taxonomy_options doc k = .ok l) ∧
      (∃ l, extract_program_list doc = .ok l) := by
  intro doc k hw
  cases doc with
  | dict entries =>
    have hwd := hw entries rfl
    constructor
    · by_cases hk : k = ""
      · subst hk
        exact ⟨[], rfl⟩
      · obtain ⟨ss, hok, _, _, _⟩ := resolve_wellTyped_master entries k hwd hk
        exact ⟨_, hok⟩
    · show ∃ l, dedupePrograms [] (collectedPrograms entries) = .ok l
      exact dedupePrograms_ok _ _
        (fun x hx => isStrVal_hashable x (collectedPrograms_all_str entries hwd x hx))
  | str s => exact ⟨⟨[], rfl⟩, ⟨[], rfl⟩⟩
  | int n => exact ⟨⟨[], rfl⟩, ⟨[], rfl⟩⟩
  | list xs => exact ⟨⟨[], rfl⟩, ⟨[], rfl⟩⟩
  | none => exact ⟨⟨[], rfl⟩, ⟨[], rfl⟩⟩

/-- Witness for the amended C6 at a concrete well-shaped document. -/
theorem resolver_extractor_no_error_wellTyped_witness :
    (∃ l, resolve_taxonomy_options
        (PyVal.dict [(PyVal.str "list", PyVal.list [PyVal.str "a"])]) "x" = .ok l) ∧
    (∃ l, extract_program_list
        (PyVal.dict [(PyVal.str "list", PyVal.list [PyVal.str "a"])]) = .ok l) := by
  have hw : ∀ entries,
      PyVal.dict [(PyVal.str "list", PyVal.list [PyVal.str "a"])] = PyVal.dict entries →
      wellTypedDoc entries = true := by
    intro entries h
    injection h with h'
    rw [← h']
    rfl
  exact resolver_extractor_no_error_wellTyped _ "x" hw

/-- Claim C7 (cache modelled from the spec): starting from an empty cache,
the first call for `d` performs exactly one store fetch, stores the fetched
document — whatever it is, including an empty one — under `d`, and returns
it; a second call within the TTL window performs zero fetches and returns
the cached document; a call at or after TTL expiry performs exactly one
more fetch. -/
theorem get_taxonomy_doc_fetch_counts (store : String → PyVal) (d : String)
    (t0 t1 t2 : Nat) (h1 : t1 < t0 + cacheTtl) (h2 : t0 + cacheTtl ≤ t2) :
    (get_taxonomy_doc store [] t0 d).fetches = 1 ∧
    (get_taxonomy_doc store [] t0 d).state = [⟨d, store d, t0⟩] ∧
    (get_taxonomy_doc store [] t0 d).result = store d ∧
    (get_taxonomy_doc store (get_taxonomy_doc store [] t0 d).state t1 d).fetches = 0 ∧
    (get_taxonomy_doc store (get_taxonomy_doc store [] t0 d).state t1 d).result = store d ∧
    (get_taxonomy_doc store
        (get_taxonomy_doc store (get_taxonomy_doc store [] t0 d).state t1 d).state
        t2 d).fetches = 1 := by
  have hstate1 : (get_taxonomy_doc store [] t0 d).state = [⟨d, store d, t0⟩] := by
    simp [get_taxonomy_doc, cacheInsert, cacheMaxsize]
  have hfresh1 : cacheFresh t1 ⟨d, store d, t0⟩ = true := by
    rw [cacheFresh, decide_eq_true_eq]
    exact h1
  have hfresh2 : cacheFresh t2 ⟨d, store d, t0⟩ = false := by
    rw [cacheFresh, decide_eq_false_iff_not]
    show ¬ t2 < t0 + cacheTtl
    omega
  have hstep2 : get_taxonomy_doc store [⟨d, store d, t0⟩] t1 d
      = ⟨store d, [⟨d, store d, t0⟩], 0⟩ := by
    rw [get_taxonomy_doc]
    rw [List.find?_cons_of_pos _ (by simp [hfresh1])]
    simp [cacheTouch]
  have hstep3 : (get_taxonomy_doc store [⟨d, store d, t0⟩] t2 d).fetches = 1 := by
    rw [get_taxonomy_doc]
    rw [List.find?_cons_of_neg _ (by simp [hfresh2]), List.find?_nil]
  refine ⟨rfl, hstate1, rfl, ?_, ?_, ?_⟩
  · rw [hstate1, hstep2]
  · rw [hstate1, hstep2]
  · rw [hstate1, hstep2]
    exact hstep3

/-- Witness for C7 with an empty fetched document and concrete times. -/
theorem get_taxonomy_doc_fetch_counts_witness :
    ((0 : Nat) + cacheTtl ≤ 300) ∧
    (get_taxonomy_doc (fun _ => PyVal.dict []) [] 0 "terms").fetches = 1 ∧
    (get_taxonomy_doc (fun _ => PyVal.dict []) [] 0 "terms").state
      = [⟨"terms", PyVal.dict [], 0⟩] ∧
    (get_taxonomy_doc (fun _ => PyVal.dict [])
        (get_taxonomy_doc (fun _ => PyVal.dict []) [] 0 "terms").state
        100 "terms").fetches = 0 ∧
    (get_taxonomy_doc (fun _ => PyVal.dict [])
        (get_taxonomy_doc (fun _ => PyVal.dict [])
            (get_taxonomy_doc (fun _ => PyVal.dict []) [] 0 "terms").state
            100 "terms").state
        300 "terms").fetches = 1 := by
  have h := get_taxonomy_doc_fetch_counts (fun _ => PyVal.dict []) "terms" 0 100 300
      (by decide) (by decide)
  exact ⟨by decide, h.1, h.2.1, h.2.2.2.1, h.2.2.2.2.2⟩

/-- Claim C8 (cache modelled from the spec): the cache constants are
100 entries and a 300-second TTL; an entry is no longer fresh once its TTL
has elapsed; an insert never leaves more than 100 entries; and inserting a
101st distinct document id evicts exactly the least-recently-used entry
while every other entry is kept. -/
theorem taxonomy_cache_bounds :
    cacheMaxsize = 100 ∧ cacheTtl = 300 ∧
    (∀ (e : CacheEntry) (now : Nat), e.ts + cacheTtl ≤ now →
        cacheFresh now e = false) ∧
    (∀ (c : List CacheEntry) (now : Nat) (k : String) (v : PyVal),
        c.length ≤ cacheMaxsize → (cacheInsert c now k v).length ≤ cacheMaxsize) ∧
    (∀ (c : List CacheEntry) (now : Nat) (k : String) (v : PyVal),
        c.length = cacheMaxsize → (∀ e ∈ c, e.key ≠ k) →
        cacheInsert c now k v = c.drop 1 ++ [⟨k, v, now⟩]) := by
  refine ⟨rfl, rfl, ?_, ?_, ?_⟩
  · intro e now h
    rw [cacheFresh, decide_eq_false_iff_not]
    omega
  · intro c now k v hlen
    have hf : (c.filter (fun e => !(e.key == k))).length ≤ c.length :=
      List.length_filter_le _ _
    rw [cacheInsert]
    split
    next hgt =>
      rw [List.length_drop]
      omega
    next hng =>
      rw [List.length_append] at hng ⊢
      omega
  · intro c now k v hlen hk
    have hfilter : c.filter (fun e => !(e.key == k)) = c := by
      apply List.filter_eq_self.mpr
      intro e he
      simp only [Bool.not_eq_true']
      exact beq_eq_false_iff_ne.mpr (hk e he)
    simp only [cacheInsert]
    rw [hfilter]
    have hlen' : (c ++ [(⟨k, v, now⟩ : CacheEntry)]).length = cacheMaxsize + 1 := by
      rw [List.length_append, hlen]
      rfl
    rw [hlen', if_pos (Nat.lt_succ_self cacheMaxsize)]
    have hdrop : cacheMaxsize + 1 - cacheMaxsize = 1 := by omega
    rw [hdrop, List.drop_append_of_le_length (by rw [hlen]; decide)]

/-- Witness for C8: a full cache of 100 entries and a fresh 101st id. -/
theorem taxonomy_cache_bounds_witness :
    cacheFresh 400 ⟨"terms", PyVal.dict [], 0⟩ = false ∧
    (cacheInsert (List.replicate 100 ⟨"old", PyVal.dict [], 0⟩) 5 "new"
        (PyVal.dict [])).length ≤ cacheMaxsize ∧
    cacheInsert (List.replicate 100 ⟨"old", PyVal.dict [], 0⟩) 5 "new" (PyVal.dict [])
      = (List.replicate 100 (⟨"old", PyVal.dict [], 0⟩ : CacheEntry)).drop 1
          ++ [⟨"new", PyVal.dict [], 5⟩] := by
  refine ⟨?_, ?_, ?_⟩
  · exact taxonomy_cache_bounds.2.2.1 (⟨"terms", PyVal.dict [], 0⟩ : CacheEntry) 400
      (by decide)
  · exact taxonomy_cache_bounds.2.2.2.1 _ 5 "new" _
      (by rw [List.length_replicate, cacheMaxsize])
  · exact taxonomy_cache_bounds.2.2.2.2 _ 5 "new" _
      (by rw [List.length_replicate, cacheMaxsize])
      (by
        intro e he
        rw [List.eq_of_mem_replicate he]
        intro hc
        exact absurd hc (by decide))

/-- Claim C9: the compound key builder returns the values of the segments
present in the path, taken in the fixed order program → term → subject up
to and including the segment currently being resolved, joined by `"_"`; a
segment missing from the path is omitted entirely and, as long as the path
values are nonempty, no empty token ever enters the joined key. -/
theorem build_compound_key_spec (path : List (String × String)) (key_name : String) :
    buildKeyParts path key_name segOrder =
      (takeThrough segOrder key_name).filterMap (pathLookup path) ∧
    build_compound_key path key_name =
      String.intercalate "_" ((takeThrough segOrder key_name).filterMap (pathLookup path)) ∧
    ((∀ p ∈ path, p.2 ≠ "") → "" ∉ buildKeyParts path key_name segOrder) := by
  refine ⟨buildKeyParts_eq_filterMap path key_name segOrder, ?_, ?_⟩
  · rw [build_compound_key, buildKeyParts_eq_filterMap]
  · intro hne hc
    rw [buildKeyParts_eq_filterMap, List.mem_filterMap] at hc
    obtain ⟨k, _, hlk⟩ := hc
    obtain ⟨pr, hpr, hpr2⟩ := pathLookup_mem path k "" hlk
    exact hne pr hpr hpr2

/-- Witness for C9: a path that skips the term segment produces `"p_s"`
with no empty token. -/
theorem build_compound_key_spec_witness :
    (∀ p ∈ [(("program" : String), ("p" : String)), ("subject", "s")], p.2 ≠ "") ∧
    "" ∉ buildKeyParts [("program", "p"), ("subject", "s")] "subject" segOrder ∧
    build_compound_key [("program", "p"), ("subject", "s")] "subject" = "p_s" :=
  ⟨by decide,
   (build_compound_key_spec [("program", "p"), ("subject", "s")] "subject").2.2 (by decide),
   rfl⟩

/-- Claim C10: over any nondecreasing sequence of report attempts of one
user, an attempt is accepted exactly when fewer than 3 of the previously
accepted reports lie within the preceding hour, and consequently no
one-hour window contains more than 3 accepted reports. -/
theorem report_file_rate_limit (times : List Nat)
    (hsort : List.Sorted (· ≤ ·) times) :
    (∀ pre now b post, reportRun [] times = pre ++ (now, b) :: post →
        (b = true ↔ (recentReports (acceptedTimes pre) now).length < reportLimit)) ∧
    (∀ w, ((acceptedTimes (reportRun [] times)).filter (inWin w)).length
        ≤ reportLimit) := by
  obtain ⟨h1, h2⟩ := reportRun_master times [] [] 0
    (fun t _ => Nat.zero_le t) hsort (fun now _ => rfl) (by simp) (by simp)
  constructor
  · intro pre now b post hdecomp
    have h := h1 pre now b post hdecomp
    rwa [List.nil_append] at h
  · intro w
    have h := h2 w
    rwa [List.nil_append] at h

/-- Witness for C10: four attempts in the same hour; the fourth is rejected
because three accepted reports already lie within the preceding hour. -/
theorem report_file_rate_limit_witness :
    List.Sorted (· ≤ ·) [0, 10, 20, 30] ∧
    reportRun [] [0, 10, 20, 30]
      = [(0, true), (10, true), (20, true)] ++ (30, false) :: [] ∧
    (false = true ↔
      (recentReports (acceptedTimes [(0, true), (10, true), (20, true)]) 30).length
        < reportLimit) ∧
    ((acceptedTimes (reportRun [] [0, 10, 20, 30])).filter (inWin 0)).length
      ≤ reportLimit := by
  have hsort : List.Sorted (· ≤ ·) [0, 10, 20, 30] := by decide
  exact ⟨hsort, rfl,
    (report_file_rate_limit [0, 10, 20, 30] hsort).1
      [(0, true), (10, true), (20, true)] 30 false [] rfl,
    (report_file_rate_limit [0, 10, 20, 30] hsort).2 0⟩
